import Mathlib

/-!
Shallow embedding of the `utf8_utils` library (src/lib.rs).

Bytes (`u8`) are modelled as `Nat`.  A byte sequence (`Vec<u8>` / `&[u8]`)
is a `List Nat`.  The `UTF8Parser` cursor wraps a
`Peekable<IntoIter<u8>>`; its state is modelled as the list of bytes the
iterator has not yet yielded.  Every method consumes the front of that
list, exactly as the Rust iterator does.  `usize` arithmetic that can
panic (underflow, out-of-bounds indexing) is modelled with `Option`:
`none` marks a panic of the Rust program.
-/

/-- Byte constant `NULL = 0x00` from src/lib.rs. -/
def NULL : Nat := 0x00

/-- Byte constant `LF = 0x0a` from src/lib.rs. -/
def LF : Nat := 0x0a

/-- Byte constant `CR = 0x0d` from src/lib.rs. -/
def CR : Nat := 0x0d

/-- `strip_null` (src/lib.rs, lines 107-112): keeps exactly the bytes that
are not `NULL`, in order (`filter(|b| **b != NULL)`). -/
def strip_null (s : List Nat) : List Nat :=
  s.filter (fun b => b ≠ NULL)

/-- `trim_crlf` (src/lib.rs, lines 113-121): `while vec.ends_with(CRLF) &&
!vec.is_empty()` pop the last two bytes; the loop has no early exit, so it
repeats until no trailing CRLF remains. -/
def trim_crlf (s : List Nat) : List Nat :=
  if h : List.isSuffixOf [CR, LF] s ∧ s ≠ [] then
    trim_crlf (s.take (s.length - 2))
  else s
termination_by s.length
decreasing_by
  have hsuf : [CR, LF] <:+ s := List.isSuffixOf_iff_suffix.mp h.1
  have hlen : 2 ≤ s.length := by
    have := hsuf.length_le
    simpa using this
  have := List.length_take (s.length - 2) s
  omega

/-- `trim_chars` (src/lib.rs, lines 123-133): the same `while ends_with`
loop, but its body ends in `break`, so the trailing pattern is removed at
most once (popping `chars.len()` bytes removes the trailing copy). -/
def trim_chars (s : List Nat) (chars : List Nat) : List Nat :=
  if List.isSuffixOf chars s ∧ s ≠ [] then
    s.take (s.length - chars.length)
  else s

namespace UTF8Parser

/-- `UTF8Parser::new` (src/lib.rs, lines 153-157): the cursor's iterator is
built from the input with `strip_null` applied; the state is the list of
bytes still to be yielded. -/
def new (buffer : List Nat) : List Nat :=
  strip_null buffer

/-- `UTF8Parser::calc_read` (src/lib.rs, lines 247-249):
`bytes.len() - buf.len()` on `usize`; `none` models the underflow panic
when `bytes.len() < buf.len()`. -/
def calc_read (buf bytes : List Nat) : Option Nat :=
  if bytes.length < buf.length then none
  else some (bytes.length - buf.length)

/-- `UTF8Parser::load_buf` (src/lib.rs, lines 158-168): returns `Ok(0)` on
an empty destination, otherwise copies `bytes[num]` into `buf[num]` for
`num in 0..calc_read(buf, bytes)` and returns that count.  `none` models a
panic: either the `calc_read` underflow or the out-of-bounds write
`buf[num]` when the computed count exceeds the destination length. -/
def load_buf (buf bytes : List Nat) : Option (List Nat × Nat) :=
  if buf.length = 0 then some (buf, 0)
  else
    match calc_read buf bytes with
    | none => none
    | some r =>
      if buf.length < r then none
      else some (bytes.take r ++ buf.drop r, r)

/-- `<UTF8Parser as Read>::read` (src/lib.rs, lines 264-271): the
`while let` loop drains the whole iterator into `bytes` (so the cursor
state afterwards is `[]`), then delegates to `load_buf`.  Result: the
destination contents, the returned count, and the cursor state after the
call; `none` models a panic inside `load_buf`. -/
def read (s buf : List Nat) : Option (List Nat × Nat × List Nat) :=
  match load_buf buf s with
  | none => none
  | some (buf2, n) => some (buf2, n, ([] : List Nat))

/-- `UTF8Parser::read_to_crlf` (src/lib.rs, lines 169-182): pops bytes one
at a time; a popped CR whose successor is LF consumes the LF and stops
(neither byte is appended); any other byte (a lone trailing CR included)
is appended and counted.  Returns the appended bytes, the count of
appended bytes, and the remaining cursor state. -/
def read_to_crlf : List Nat → List Nat × Nat × List Nat
  | [] => ([], 0, [])
  | [b] => ([b], 1, [])
  | b :: c :: rest =>
    if b = CR ∧ c = LF then ([], 0, rest)
    else
      let r := read_to_crlf (c :: rest)
      (b :: r.1, r.2.1 + 1, r.2.2)

/-- `UTF8Parser::read_to_char` (src/lib.rs, lines 212-223): pops bytes,
appending and counting each one, until the delimiter is popped (and
discarded) or the iterator is exhausted. -/
def read_to_char (char : Nat) : List Nat → List Nat × Nat × List Nat
  | [] => ([], 0, [])
  | b :: rest =>
    if b = char then ([], 0, rest)
    else
      let r := read_to_char char rest
      (b :: r.1, r.2.1 + 1, r.2.2)

/-- `UTF8Parser::read_to_null` (src/lib.rs, lines 232-234): delegates to
`read_to_char` with the `NULL` delimiter. -/
def read_to_null (s : List Nat) : List Nat × Nat × List Nat :=
  read_to_char NULL s

/-- `UTF8Parser::take_crlf` (src/lib.rs, lines 198-210): repeatedly calls
`read_to_crlf`; a read that appends 0 bytes stops the loop and its (empty)
line is discarded, any other line is pushed.  Returns the collected lines
and the final cursor state. -/
def take_crlf (s : List Nat) : List (List Nat) × List Nat :=
  if h0 : (read_to_crlf s).2.1 = 0 then ([], (read_to_crlf s).2.2)
  else
    ((read_to_crlf s).1 :: (take_crlf (read_to_crlf s).2.2).1,
      (take_crlf (read_to_crlf s).2.2).2)
termination_by s.length
decreasing_by
  have key : ∀ u : List Nat,
      (read_to_crlf u).2.2.length + (read_to_crlf u).2.1 ≤ u.length := by
    intro u
    induction u with
    | nil => simp [read_to_crlf]
    | cons b tl ih =>
      cases tl with
      | nil => simp [read_to_crlf]
      | cons c rest =>
        by_cases hbc : b = CR ∧ c = LF
        · simp [read_to_crlf, hbc]
          omega
        · simp only [read_to_crlf, if_neg hbc]
          simp only [List.length_cons] at ih ⊢
          omega
  have hk := key s
  simp only [List.length_cons] at hk ⊢
  omega

/-- `UTF8Parser::take_crlf_strings` (src/lib.rs, lines 184-196): the same
loop as `take_crlf`, but each collected line is decoded with
`as_utf8_lossy().to_string()`.  Lossy UTF-8 decoding is a standard-library
capability, so it is taken as an arbitrary parameter `decode`; the loop
never inspects the decoded values. -/
def take_crlf_strings (decode : List Nat → String) (s : List Nat) :
    List String × List Nat :=
  if h0 : (read_to_crlf s).2.1 = 0 then ([], (read_to_crlf s).2.2)
  else
    (decode (read_to_crlf s).1 :: (take_crlf_strings decode (read_to_crlf s).2.2).1,
      (take_crlf_strings decode (read_to_crlf s).2.2).2)
termination_by s.length
decreasing_by
  have key : ∀ u : List Nat,
      (read_to_crlf u).2.2.length + (read_to_crlf u).2.1 ≤ u.length := by
    intro u
    induction u with
    | nil => simp [read_to_crlf]
    | cons b tl ih =>
      cases tl with
      | nil => simp [read_to_crlf]
      | cons c rest =>
        by_cases hbc : b = CR ∧ c = LF
        · simp [read_to_crlf, hbc]
          omega
        · simp only [read_to_crlf, if_neg hbc]
          simp only [List.length_cons] at ih ⊢
          omega
  have hk := key s
  simp only [List.length_cons] at hk ⊢
  omega

end UTF8Parser

/-- Scans a byte list for two adjacent bytes forming CR LF; used to state
which inputs `read_to_crlf` scans without terminating early. -/
def hasCRLF : List Nat → Bool
  | [] => false
  | [_] => false
  | a :: b :: rest => (a == CR && b == LF) || hasCRLF (b :: rest)

/-- Unfolding lemma: when `read_to_crlf` appends a nonzero number of bytes,
`take_crlf` pushes that line and loops on the rest. -/
theorem take_crlf_of_ne (s l r : List Nat) (n : Nat)
    (h : UTF8Parser.read_to_crlf s = (l, n, r)) (hn : n ≠ 0) :
    UTF8Parser.take_crlf s =
      (l :: (UTF8Parser.take_crlf r).1, (UTF8Parser.take_crlf r).2) := by
  conv_lhs => rw [UTF8Parser.take_crlf.eq_def]
  rw [h]
  simp [hn]

/-- Unfolding lemma: when `read_to_crlf` appends zero bytes, `take_crlf`
stops and discards the empty line. -/
theorem take_crlf_of_zero (s l r : List Nat)
    (h : UTF8Parser.read_to_crlf s = (l, 0, r)) :
    UTF8Parser.take_crlf s = ([], r) := by
  conv_lhs => rw [UTF8Parser.take_crlf.eq_def]
  rw [h]
  simp

/-- Unfolding lemma for `take_crlf_strings`, nonzero-read case. -/
theorem take_crlf_strings_of_ne (decode : List Nat → String)
    (s l r : List Nat) (n : Nat)
    (h : UTF8Parser.read_to_crlf s = (l, n, r)) (hn : n ≠ 0) :
    UTF8Parser.take_crlf_strings decode s =
      (decode l :: (UTF8Parser.take_crlf_strings decode r).1,
        (UTF8Parser.take_crlf_strings decode r).2) := by
  conv_lhs => rw [UTF8Parser.take_crlf_strings.eq_def]
  rw [h]
  simp [hn]

/-- Unfolding lemma for `take_crlf_strings`, zero-read case. -/
theorem take_crlf_strings_of_zero (decode : List Nat → String)
    (s l r : List Nat) (h : UTF8Parser.read_to_crlf s = (l, 0, r)) :
    UTF8Parser.take_crlf_strings decode s = ([], r) := by
  conv_lhs => rw [UTF8Parser.take_crlf_strings.eq_def]
  rw [h]
  simp

/-- A list whose head is dropped still has no adjacent CR LF pair. -/
theorem hasCRLF_of_cons (a : Nat) (p : List Nat)
    (h : hasCRLF (a :: p) = false) : hasCRLF p = false := by
  cases p with
  | nil => rfl
  | cons b p2 =>
    rw [hasCRLF] at h
    exact (Bool.or_eq_false_iff.mp h).2

/-- `read_to_crlf` on a CRLF-free prefix followed by a CR LF terminator:
the whole prefix is appended, the terminator is consumed, and scanning
stops exactly there. -/
theorem read_to_crlf_append (p q : List Nat) (hp : hasCRLF p = false) :
    UTF8Parser.read_to_crlf (p ++ CR :: LF :: q) = (p, p.length, q) := by
  induction p with
  | nil => simp [UTF8Parser.read_to_crlf, CR, LF]
  | cons a p2 ih =>
    have hp2 : hasCRLF p2 = false := hasCRLF_of_cons a p2 hp
    cases p2 with
    | nil =>
      have ha : ¬ (a = CR ∧ CR = LF) := by
        intro hcl
        exact absurd hcl.2 (by decide)
      simp [UTF8Parser.read_to_crlf, ha, CR, LF]
    | cons b p3 =>
      have hab : ¬ (a = CR ∧ b = LF) := by
        intro hcl
        rw [hasCRLF] at hp
        have := (Bool.or_eq_false_iff.mp hp).1
        simp [hcl.1, hcl.2] at this
      have heq : (a :: b :: p3) ++ CR :: LF :: q
          = a :: ((b :: p3) ++ CR :: LF :: q) := rfl
      rw [heq]
      have heq2 : (b :: p3) ++ CR :: LF :: q
          = b :: (p3 ++ CR :: LF :: q) := rfl
      rw [heq2]
      rw [UTF8Parser.read_to_crlf]
      rw [if_neg hab]
      rw [← heq2, ih hp2]
      simp

/-- When the delimiter does not occur in the remaining bytes,
`read_to_char` appends the whole remainder, returns its full length, and
leaves the cursor empty. -/
theorem read_to_char_of_not_mem (c : Nat) (t : List Nat) (h : c ∉ t) :
    UTF8Parser.read_to_char c t = (t, t.length, []) := by
  induction t with
  | nil => rfl
  | cons b rest ih =>
    have hb : b ≠ c := fun hbc => h (hbc ▸ List.mem_cons_self b rest)
    have hrest : c ∉ rest := fun hc => h (List.mem_cons_of_mem b hc)
    simp only [UTF8Parser.read_to_char, if_neg hb]
    rw [ih hrest]
    simp

/-- The cursor state left behind by `read_to_char` is a suffix of the
state it started from. -/
theorem read_to_char_rest_suffix (c : Nat) (t : List Nat) :
    (UTF8Parser.read_to_char c t).2.2 <:+ t := by
  induction t with
  | nil => simp [UTF8Parser.read_to_char]
  | cons b rest ih =>
    by_cases hb : b = c
    · simp [UTF8Parser.read_to_char, hb]
    · simp only [UTF8Parser.read_to_char, if_neg hb]
      exact ih.trans (List.suffix_cons b rest)

/-- The cursor state left behind by `read_to_crlf` is a suffix of the
state it started from. -/
theorem read_to_crlf_rest_suffix (t : List Nat) :
    (UTF8Parser.read_to_crlf t).2.2 <:+ t := by
  induction t with
  | nil => simp [UTF8Parser.read_to_crlf]
  | cons b tl ih =>
    cases tl with
    | nil => simp [UTF8Parser.read_to_crlf]
    | cons c rest =>
      by_cases hbc : b = CR ∧ c = LF
      · simp only [UTF8Parser.read_to_crlf, if_pos hbc]
        exact (List.suffix_cons c rest).trans (List.suffix_cons b (c :: rest))
      · simp only [UTF8Parser.read_to_crlf, if_neg hbc]
        exact ih.trans (List.suffix_cons b (c :: rest))

/-- `trim_chars` removes a trailing copy of the pattern whenever the input
ends with one. -/
theorem trim_chars_append (s chars : List Nat) :
    trim_chars (s ++ chars) chars = s := by
  unfold trim_chars
  by_cases he : s ++ chars = []
  · have hs : s = [] := (List.append_eq_nil.mp he).1
    have hc : chars = [] := (List.append_eq_nil.mp he).2
    subst hs
    subst hc
    simp
  · have hsuf : List.isSuffixOf chars (s ++ chars) :=
      List.isSuffixOf_iff_suffix.mpr (List.suffix_append s chars)
    rw [if_pos ⟨hsuf, he⟩]
    have hlen : (s ++ chars).length - chars.length = s.length := by
      simp
    rw [hlen, List.take_left]

/-- Bounded-recursion form of the no-trailing-CRLF property of
`trim_crlf`. -/
theorem trim_crlf_no_crlf_aux :
    ∀ (n : Nat) (s : List Nat), s.length ≤ n → ¬ ([CR, LF] <:+ trim_crlf s) := by
  intro n
  induction n with
  | zero =>
    intro s hs
    have hs0 : s = [] := List.length_eq_zero.mp (Nat.le_zero.mp hs)
    subst hs0
    have h0 : trim_crlf [] = [] := by
      unfold trim_crlf
      simp
    rw [h0]
    simp
  | succ n ih =>
    intro s hs
    unfold trim_crlf
    by_cases hc : (List.isSuffixOf [CR, LF] s ∧ s ≠ [])
    · rw [dif_pos hc]
      have hsuf : [CR, LF] <:+ s := List.isSuffixOf_iff_suffix.mp hc.1
      have hlen2 : 2 ≤ s.length := by
        simpa using hsuf.length_le
      apply ih
      have := List.length_take (s.length - 2) s
      omega
    · rw [dif_neg hc]
      intro hsuf
      apply hc
      refine ⟨List.isSuffixOf_iff_suffix.mpr hsuf, ?_⟩
      intro hnil
      subst hnil
      simp at hsuf

/-- A list not ending in CR LF is a fixed point of `trim_crlf`. -/
theorem trim_crlf_fixed (t : List Nat) (ht : ¬ ([CR, LF] <:+ t)) :
    trim_crlf t = t := by
  unfold trim_crlf
  rw [dif_neg]
  intro hcond
  exact ht (List.isSuffixOf_iff_suffix.mp hcond.1)

/-- C5: `trim_crlf` strips trailing CR LF pairs until none remains, so it
is idempotent and its result never ends with the two-byte sequence CR
LF. -/
theorem c5_trim_crlf_idempotent (s : List Nat) :
    trim_crlf (trim_crlf s) = trim_crlf s ∧ ¬ ([CR, LF] <:+ trim_crlf s) := by
  have h : ¬ ([CR, LF] <:+ trim_crlf s) :=
    trim_crlf_no_crlf_aux s.length s (le_refl _)
  exact ⟨trim_crlf_fixed (trim_crlf s) h, h⟩

/-- C4: `trim_chars` removes a trailing occurrence of the pattern at most
once: one trailing copy is removed when the input ends with the pattern,
a second trailing copy survives the same call, and an input not ending
with the pattern is returned unchanged. -/
theorem c4_trim_chars_at_most_once (s chars : List Nat) :
    trim_chars (s ++ chars) chars = s ∧
    trim_chars (s ++ (chars ++ chars)) chars = s ++ chars ∧
    (List.isSuffixOf chars s = false → trim_chars s chars = s) := by
  refine ⟨trim_chars_append s chars, ?_, ?_⟩
  · rw [← List.append_assoc]
    exact trim_chars_append (s ++ chars) chars
  · intro hns
    unfold trim_chars
    rw [if_neg]
    intro hcond
    have h1 := hcond.1
    rw [hns] at h1
    exact absurd h1 (by simp)

/-- Witness for C4 at a concrete input. -/
theorem c4_witness :
    trim_chars ([65] ++ [13, 10]) [13, 10] = [65] ∧
    trim_chars [65] [13, 10] = [65] :=
  ⟨(c4_trim_chars_at_most_once [65] [13, 10]).1,
    (c4_trim_chars_at_most_once [65] [13, 10]).2.2 (by decide)⟩

/-- C8: `strip_null` returns a sequence with no NUL byte, obtained by
removing every NUL while keeping the remaining bytes in order (it is a
sublist of the input preserving the multiplicity of every non-NUL
byte). -/
theorem c8_strip_null_removes_all_nuls (s : List Nat) :
    NULL ∉ strip_null s ∧ List.Sublist (strip_null s) s ∧
    ∀ b : Nat, b ≠ NULL → (strip_null s).count b = s.count b := by
  refine ⟨?_, List.filter_sublist s, ?_⟩
  · intro hmem
    have := (List.mem_filter.mp hmem).2
    simp at this
  · intro b hb
    exact List.count_filter (by simp [hb])

/-- Witness for C8 at a concrete input. -/
theorem c8_witness :
    NULL ∉ strip_null [102, 0, 98] ∧
    List.Sublist (strip_null [102, 0, 98]) [102, 0, 98] ∧
    (strip_null [102, 0, 98]).count 98 = List.count 98 [102, 0, 98] :=
  ⟨(c8_strip_null_removes_all_nuls [102, 0, 98]).1,
    (c8_strip_null_removes_all_nuls [102, 0, 98]).2.1,
    (c8_strip_null_removes_all_nuls [102, 0, 98]).2.2 98 (by decide)⟩

/-- C7: every NUL byte is removed when the cursor is constructed, no read
operation can reintroduce one (the leftover state is always a suffix), and
consequently `read_to_null` never finds its delimiter: it consumes and
returns the entire remaining buffer with its full length. -/
theorem c7_nul_invariant (s : List Nat) :
    NULL ∉ UTF8Parser.new s ∧
    UTF8Parser.read_to_null (UTF8Parser.new s) =
      (UTF8Parser.new s, (UTF8Parser.new s).length, []) ∧
    ∀ t : List Nat, NULL ∉ t →
      (∀ c : Nat, NULL ∉ (UTF8Parser.read_to_char c t).2.2) ∧
      NULL ∉ (UTF8Parser.read_to_crlf t).2.2 := by
  have hmem : NULL ∉ UTF8Parser.new s := by
    intro hmem
    have := (List.mem_filter.mp hmem).2
    simp at this
  refine ⟨hmem, read_to_char_of_not_mem NULL _ hmem, ?_⟩
  intro t ht
  exact ⟨fun c hmem2 => ht ((read_to_char_rest_suffix c t).subset hmem2),
    fun hmem2 => ht ((read_to_crlf_rest_suffix t).subset hmem2)⟩

/-- Witness for C7: the spec's own example, a cursor over bytes
`"foo\x00bar"` whose `read_to_null` yields `"foobar"` and count 6. -/
theorem c7_witness :
    NULL ∉ UTF8Parser.new [102, 111, 111, 0, 98, 97, 114] ∧
    UTF8Parser.read_to_null (UTF8Parser.new [102, 111, 111, 0, 98, 97, 114]) =
      ([102, 111, 111, 98, 97, 114], 6, []) ∧
    NULL ∉ (UTF8Parser.read_to_crlf
      (UTF8Parser.new [102, 111, 111, 0, 98, 97, 114])).2.2 := by
  have h := c7_nul_invariant [102, 111, 111, 0, 98, 97, 114]
  refine ⟨h.1, ?_, (h.2.2 _ h.1).2⟩
  rw [h.2.1]
  decide

/-- C1 (code bug): at remaining bytes `[97, 98, 99]` and a 2-byte
destination, `Read::read` returns a count of `bytes.len() - buf.len() = 1`
and copies a single byte, not `min(remaining, capacity) = 2` as claimed. -/
theorem c1_read_count_not_min :
    UTF8Parser.read [97, 98, 99] [0, 0] = some ([97, 0], 1, []) ∧
    (1 : Nat) ≠ min 3 2 := by
  decide

/-- C2 (code bug): with the cursor exhausted, `read_to_crlf`,
`read_to_char` and `read_to_null` do return a zero count repeatably, but
`Read::read` with a nonempty destination panics (`none`): `calc_read`
computes `0 - 1` on `usize`. -/
theorem c2_exhausted_read_panics :
    UTF8Parser.read [] [0] = none ∧
    UTF8Parser.read_to_crlf [] = ([], 0, []) ∧
    (∀ c : Nat, UTF8Parser.read_to_char c [] = ([], 0, [])) ∧
    UTF8Parser.read_to_null [] = ([], 0, []) :=
  ⟨by decide, rfl, fun c => rfl, rfl⟩

/-- C3 counterexample: on a cursor over `"A\rB\r\n"` a single
`read_to_crlf` returns count 3, not 4 as the claim states. -/
theorem c3_counterexample :
    (UTF8Parser.read_to_crlf (UTF8Parser.new [65, 13, 66, 13, 10])).2.1 ≠ 4 := by
  decide

/-- C3 (amended): on a cursor over `"A\rB\r\n"` a single `read_to_crlf`
appends exactly the three content bytes `"A\rB"` (the lone CR is kept as
content) and returns count 3, consuming both terminator bytes. -/
theorem c3_amended :
    UTF8Parser.read_to_crlf (UTF8Parser.new [65, 13, 66, 13, 10]) =
      ([65, 13, 66], 3, []) := by
  decide

/-- C10: `Read::read` with a zero-length destination returns `Ok(0)` yet
drains the whole cursor: the state afterwards is `[]`, not the nonempty
state it started with. -/
theorem c10_zero_len_read_drains (s : List Nat) (h : s ≠ []) :
    UTF8Parser.read s [] = some ([], 0, []) ∧ ([] : List Nat) ≠ s := by
  exact ⟨rfl, fun he => h he.symm⟩

/-- Witness for C10 at a concrete input. -/
theorem c10_witness :
    UTF8Parser.read [65] [] = some ([], 0, []) ∧ ([] : List Nat) ≠ [65] :=
  c10_zero_len_read_drains [65] (by decide)

/-- C6: a cursor over `"A\r\nBB\r\n"` collects exactly the raw lines
`["A", "BB"]`: terminators are consumed, not retained, and the empty
terminal read is discarded rather than emitted as a trailing empty
line. -/
theorem c6_roundtrip_lines :
    UTF8Parser.take_crlf (UTF8Parser.new [65, 13, 10, 66, 66, 13, 10]) =
      ([[65], [66, 66]], []) := by
  have hnew : UTF8Parser.new [65, 13, 10, 66, 66, 13, 10]
      = [65, 13, 10, 66, 66, 13, 10] := rfl
  rw [hnew]
  rw [take_crlf_of_ne _ _ _ _
    (show UTF8Parser.read_to_crlf [65, 13, 10, 66, 66, 13, 10]
      = ([65], 1, [66, 66, 13, 10]) from rfl) (by decide)]
  rw [take_crlf_of_ne _ _ _ _
    (show UTF8Parser.read_to_crlf [66, 66, 13, 10]
      = ([66, 66], 2, []) from rfl) (by decide)]
  rw [take_crlf_of_zero _ _ _
    (show UTF8Parser.read_to_crlf [] = ([], 0, []) from rfl)]

/-- C9: for every cursor whose input is any number of nonempty CRLF-free
lines, each with its CR LF terminator, followed by an interior empty line
(an immediately following second CR LF, or an input beginning with CR LF
when no line precedes it) and then arbitrary further bytes `q`, both bulk
collectors stop at the empty line's zero-length read: they return exactly
the lines before it, omitting the empty line and everything after it,
while `q` stays unread in the cursor. -/
theorem c9_interior_empty_line_stops (ls : List (List Nat)) (q : List Nat)
    (h : ∀ l ∈ ls, hasCRLF l = false ∧ l ≠ []) :
    UTF8Parser.take_crlf
        ((ls.map (fun l => l ++ [CR, LF])).flatten ++ [CR, LF] ++ q) = (ls, q) ∧
    ∀ decode : List Nat → String,
      UTF8Parser.take_crlf_strings decode
          ((ls.map (fun l => l ++ [CR, LF])).flatten ++ [CR, LF] ++ q)
        = (ls.map decode, q) := by
  induction ls with
  | nil =>
    have h2 : UTF8Parser.read_to_crlf (CR :: LF :: q) = ([], 0, q) := by
      simp [UTF8Parser.read_to_crlf]
    constructor
    · simpa using take_crlf_of_zero _ _ _ h2
    · intro decode
      simpa using take_crlf_strings_of_zero decode _ _ _ h2
  | cons l tl ih =>
    have hl := h l (List.mem_cons_self l tl)
    have htl : ∀ x ∈ tl, hasCRLF x = false ∧ x ≠ [] :=
      fun x hx => h x (List.mem_cons_of_mem l hx)
    have ihs := ih htl
    have heq : ((l :: tl).map (fun x => x ++ [CR, LF])).flatten ++ [CR, LF] ++ q
        = l ++ CR :: LF :: ((tl.map (fun x => x ++ [CR, LF])).flatten ++ [CR, LF] ++ q) := by
      simp
    have h1 := read_to_crlf_append l
      ((tl.map (fun x => x ++ [CR, LF])).flatten ++ [CR, LF] ++ q) hl.1
    have hlen : l.length ≠ 0 := by
      simpa using hl.2
    constructor
    · rw [heq, take_crlf_of_ne _ _ _ _ h1 hlen, ihs.1]
    · intro decode
      rw [heq, take_crlf_strings_of_ne decode _ _ _ _ h1 hlen, (ihs.2 decode)]
      simp

/-- Witness for C9 at the concrete input `"A\r\nB\r\n\r\nC\r\n"`: two
lines precede the interior empty line, `"C\r\n"` follows it. -/
theorem c9_witness :
    UTF8Parser.take_crlf
        ((([[65], [66]] : List (List Nat)).map (fun l => l ++ [CR, LF])).flatten
          ++ [CR, LF] ++ [67, 13, 10])
      = ([[65], [66]], [67, 13, 10]) :=
  (c9_interior_empty_line_stops [[65], [66]] [67, 13, 10] (by decide)).1
